import Mathlib

/-!
SpsModelAnal: the frame accumulator and the stochastic envelope.

A shallow embedding of `src/algorithms/synthesis/spsmodelanal.cpp`.

* `std::vector<Real>` is a `List` of samples. The accumulator code only moves samples, so it is
  generic in the sample type.
* Every `v[i]` of the source is a checked access (`readAt`, `writeAt`): an index outside the
  vector gives `Failure.outOfRange`, so that "the call returns" is a statement to prove.
* `int` values are `Int`; vector sizes are `Nat` (the `(int)` casts of the source are exact for
  sizes below `2^31`, which is assumed throughout).
* `Real` arithmetic is exact arithmetic in a linearly ordered field (`ℚ`, `ℝ`); `sqrt` and
  `log10` are parameters of the envelope code, instantiated with the real functions.
* The one place where single precision decides an integer result, the product
  `stocf * fftSize` of `stocSize`, is rounded as the machine does (`toBinary32`): the `int` is
  converted to `float`, the product is a `float`, and only then comes the division by `2.`
  in double precision, which is exact.
-/

namespace SpsModelAnal

/-- The ways a call can fail. No statement of the source raises `invalidArgument`; `outOfRange`
stands for an index outside a vector; `undefinedBehaviour` stands for a statement whose
behaviour the language leaves undefined (`erase` at `end()`). -/
inductive Failure where
  | invalidArgument
  | outOfRange
  | undefinedBehaviour
  deriving DecidableEq, Repr

/-- Read `v[i]`. -/
def readAt {α : Type} (v : List α) (i : Nat) : Except Failure α :=
  match v[i]? with
  | some a => Except.ok a
  | none => Except.error Failure.outOfRange

/-- Assign `v[i] = a`. -/
def writeAt {α : Type} (v : List α) (i : Nat) (a : α) : Except Failure (List α) :=
  if i < v.length then Except.ok (v.set i a) else Except.error Failure.outOfRange

/-- The body of the loop of `updateStocInFrame` at index `i`. -/
def updateStocInFrameBody {α : Type} (frameIn : List α) (frameAccumulator : List α) (i : Nat) :
    Except Failure (List α) :=
  if i + frameIn.length < frameAccumulator.length then do
    let shifted ← readAt frameAccumulator (i + frameIn.length)
    let acc1 ← writeAt frameAccumulator i shifted
    let sample ← readAt frameIn i
    writeAt acc1 (i + frameIn.length) sample
  else
    Except.ok frameAccumulator

/-- `SpsModelAnal::updateStocInFrame`: one forward pass over `i = 0 .. frameIn.size() - 1`. -/
def updateStocInFrame {α : Type} (frameIn : List α) (frameAccumulator : List α) :
    Except Failure (List α) :=
  (List.range frameIn.length).foldlM (updateStocInFrameBody frameIn) frameAccumulator

/-- The accumulator that `configure` creates: `resize(2*hopSize)` then `fill` with `0`. -/
def configureStocFrameIn {α : Type} [Zero α] (hopSize : Nat) : List α :=
  List.replicate (2 * hopSize) 0

/-- Push a sequence of frames, one call of `updateStocInFrame` per frame (as `compute` does
once per analysis step). -/
def pushFrames {α : Type} (frames : List (List α)) (frameAccumulator : List α) :
    Except Failure (List α) :=
  frames.foldlM (fun acc frame => updateStocInFrame frame acc) frameAccumulator

/-- The two-phase update the single pass is compared with: first every shift
`buffer[i] := old[i+n]` read from a snapshot `old` of the buffer, then every copy
`buffer[i+n] := frame[i]`, for the indices `i < n` with `i + n < m`. -/
def updateTwoPhase {α : Type} (frame : List α) (buffer : List α) : List α :=
  let old := buffer
  let shifted := (List.range frame.length).foldl
    (fun acc i =>
      if i + frame.length < buffer.length then
        match old[i + frame.length]? with
        | some a => acc.set i a
        | none => acc
      else acc) buffer
  (List.range frame.length).foldl
    (fun acc i =>
      if i + frame.length < buffer.length then
        match frame[i]? with
        | some a => acc.set (i + frame.length) a
        | none => acc
      else acc) shifted

/-- The accumulator once the shifts of the indices below `k1` and the copies of the indices
below `k2` are done, in closed form (position by position, from the old contents). -/
def updatedUpTo {α : Type} (frame : List α) (old : List α) (k1 k2 : Nat) : List α :=
  old.mapIdx fun j a =>
    if j < k1 ∧ j + frame.length < old.length then (old[j + frame.length]?).getD a
    else if frame.length ≤ j ∧ j - frame.length < k2 then (frame[j - frame.length]?).getD a
    else a

/-! ## `configure` and the envelope code -/

/-- `subtrFFTSize` of `configure`: `std::min(512, 4*parameter("hopSize").toInt())`
(`4*hopSize` is taken without `int` overflow, that is for `hopSize < 2^29`). -/
def subtrFFTSize (hopSize : Int) : Int :=
  min 512 (4 * hopSize)

/-- The conversion `int(x)` of a real `x`: truncation toward zero. -/
def truncToInt {K : Type} [LinearOrderedField K] [FloorRing K] (x : K) : Int :=
  if 0 ≤ x then Int.floor x else Int.ceil x

/-- The clamp `std::min(std::max(0.01f, parameter("stocf").toReal()), 1.f)`. -/
def clampStocf {K : Type} [LinearOrderedField K] (stocfParam : K) : K :=
  min (max 0.01 stocfParam) 1

/-- Rounding to the nearest integer, a tie going to the even one. -/
def roundHalfEven {K : Type} [LinearOrderedField K] [FloorRing K] (x : K) : Int :=
  let lower := Int.floor x
  if x - lower < 1 / 2 then lower
  else if 1 / 2 < x - lower then lower + 1
  else if lower % 2 = 0 then lower else lower + 1

/-- The `float` (IEEE binary32) nearest to `x`, a tie going to the even significand: 24
significant bits, the exponent of the last bit not below `-149` (subnormal numbers). It is
what a conversion to `float` and a `float` operation return for the exact value `x`. Overflow
to infinity is left out: the operands of `stocSize` stay below `2^32`. -/
def toBinary32 {K : Type} [LinearOrderedField K] [FloorRing K] (x : K) : K :=
  let exponent := max (Int.log 2 |x| - 23) (-149)
  (roundHalfEven (x / (2 : K) ^ exponent) : K) * (2 : K) ^ exponent

/-- The two lines computing `stocSize` from the clamped `stocf` (a `float`):
`int(stocf * parameter("fftSize").toInt() / 2.)`, then `stocSize += stocSize % 2`. The `int`
is converted to `float` and the product is a `float`, both rounded by `toBinary32`; the
division by the double `2.` is exact; `int(...)` truncates and so does `%` of C++. -/
def stocSize {K : Type} [LinearOrderedField K] [FloorRing K] (stocf : K) (fftSize : Int) : Int :=
  let product := toBinary32 (stocf * toBinary32 (fftSize : K))
  let stocSize := truncToInt (product / 2)
  stocSize + Int.tmod stocSize 2

/-- The value pushed on `magResDB` for one bin `(re, im)`:
`mag = sqrt(re*re + im*im)`, `magdB = std::max(-200., 20. * log10(mag + 1e-10))`. -/
def logMagnitude {K : Type} [LinearOrderedField K] (sqrt log10 : K → K) (bin : K × K) : K :=
  let mag := sqrt (bin.1 * bin.1 + bin.2 * bin.2)
  max (-200) (20 * log10 (mag + 1e-10))

/-- `initializeFFT`: `resize(sizeFFT)` and every bin set to `0` (a size below zero, which the
callers never pass, gives the empty vector here). -/
def initializeFFT {C : Type} [Zero C] (sizeFFT : Int) : List C :=
  List.replicate sizeFFT.toNat 0

/-- `SpsModelAnal::resample`. The two transforms `_fftres` and `_ifftres` are algorithm objects
of the class and are parameters here. A bin is copied whole (the source copies its real and
its imaginary part). -/
def resample {K C : Type} [LinearOrderedField K] [FloorRing K] [Zero C]
    (fftres : List K → List C) (ifftres : List C → List K) (input : List K) (sizeOut : Int) :
    Except Failure (List K) := do
  let sizeIn : Int := (input.length : Int)
  let fftin := fftres input
  let hN := truncToInt ((sizeIn : K) / 2 + 1)
  let hNout := truncToInt ((sizeOut : K) / 2 + 1)
  let fftout ← (List.range (min hN hNout).toNat).foldlM
    (fun acc i => do
      let bin ← readAt fftin i
      writeAt acc i bin) (initializeFFT hNout)
  let out := ifftres fftout
  let normalizationGain : K := 1 / (sizeIn : K)
  (List.range sizeOut.toNat).foldlM
    (fun acc i => do
      let sample ← readAt acc i
      writeAt acc i (sample * normalizationGain)) out

/-- `SpsModelAnal::stochasticModelAnalOld` from the residual spectrum `fftRes` on: the clamp of
`stocf`, `stocSize`, the log-magnitude loop and the branch on `stocf == 1.`. What comes before
(the subtraction of the sines, which gives `fftRes`) and after (the loop that only writes to
the log) is left out. `magResDB.erase(magResDB.end())`, reached when `magResDB` has an odd
size, erases at the past-the-end iterator, which the language leaves undefined: that path
ends in `Failure.undefinedBehaviour`. -/
def stochasticModelAnalOld {K C : Type} [LinearOrderedField K] [FloorRing K] [Zero C]
    (sqrt log10 : K → K) (fftres : List K → List C) (ifftres : List C → List K)
    (stocfParam : K) (fftSize : Int) (fftRes : List (K × K)) : Except Failure (List K) :=
  let stocf := clampStocf stocfParam
  let stocSize := stocSize stocf fftSize
  let magResDB := fftRes.map (logMagnitude sqrt log10)
  if stocf = 1 then
    Except.ok magResDB
  else if magResDB.length % 2 > 0 then
    Except.error Failure.undefinedBehaviour
  else
    resample fftres ifftres magResDB stocSize

/-- Modelled from the spec: the forward spectral transform `_fftres` (the FFT algorithm of the
library, not part of the source file). For a real sequence of length `N` it gives the
`N/2 + 1` positive-frequency bins `X[k] = Σ_n x[n] exp(-2πi k n / N)`, unnormalised. -/
noncomputable def forwardTransform (x : List ℝ) : List ℂ :=
  (List.range (x.length / 2 + 1)).map fun k : Nat =>
    ∑ n in Finset.range x.length,
      ((x.getD n 0 : ℝ) : ℂ)
        * Complex.exp (-(2 * Real.pi * Complex.I * (k : ℂ) * (n : ℂ) / (x.length : ℂ)))

/-- Modelled from the spec: bin `k` of the conjugate-symmetric spectrum of size `size` that
the positive-frequency bins `X` stand for. -/
def hermitianBin (size : Nat) (X : List ℂ) (k : Nat) : ℂ :=
  if 2 * k ≤ size then X.getD k 0 else (starRingEnd ℂ) (X.getD (size - k) 0)

/-- Modelled from the spec: the inverse spectral transform `_ifftres` of size `size` (the IFFT
algorithm of the library, not part of the source file), unnormalised: the real sequence
`y[n] = Re Σ_k X[k] exp(2πi k n / size)` over the conjugate-symmetric spectrum. -/
noncomputable def inverseTransform (size : Nat) (X : List ℂ) : List ℝ :=
  (List.range size).map fun n : Nat =>
    (∑ k in Finset.range size,
      hermitianBin size X k
        * Complex.exp (2 * Real.pi * Complex.I * (k : ℂ) * (n : ℂ) / (size : ℂ))).re

/-! ## Lemmas on the accumulator -/

theorem ok_bind {ε α β : Type} (a : α) (f : α → Except ε β) :
    (Except.ok a >>= f) = f a := rfl

theorem length_updatedUpTo {α : Type} (frame old : List α) (k1 k2 : Nat) :
    (updatedUpTo frame old k1 k2).length = old.length := by
  simp [updatedUpTo]

theorem updatedUpTo_zero {α : Type} (frame old : List α) :
    updatedUpTo frame old 0 0 = old := by
  apply List.ext_getElem?
  intro j
  simp [updatedUpTo]

theorem getElem?_updatedUpTo {α : Type} (frame old : List α) (k1 k2 j : Nat) :
    (updatedUpTo frame old k1 k2)[j]? =
      (old[j]?).map fun a =>
        if j < k1 ∧ j + frame.length < old.length then (old[j + frame.length]?).getD a
        else if frame.length ≤ j ∧ j - frame.length < k2 then (frame[j - frame.length]?).getD a
        else a := by
  simp [updatedUpTo]

theorem getElem?_some_lt {α : Type} {l : List α} {j : Nat} {a : α} (h : l[j]? = some a) :
    j < l.length := by
  rcases Nat.lt_or_ge j l.length with h1 | h1
  · exact h1
  · rw [List.getElem?_eq_none h1] at h
    cases h

/-- One shift: `buffer[k1] := old[k1+n]`. -/
theorem set_shift_updatedUpTo {α : Type} (frame old : List α) (k1 k2 : Nat) (b : α)
    (hb : old[k1 + frame.length]? = some b) :
    (updatedUpTo frame old k1 k2).set k1 b = updatedUpTo frame old (k1 + 1) k2 := by
  have hlt : k1 + frame.length < old.length := getElem?_some_lt hb
  apply List.ext_getElem?
  intro j
  rw [List.getElem?_set, getElem?_updatedUpTo, getElem?_updatedUpTo,
    length_updatedUpTo]
  by_cases hj : k1 = j
  · subst hj
    obtain ⟨a, ha⟩ : ∃ a, old[k1]? = some a :=
      ⟨old[k1], List.getElem?_eq_getElem (by omega)⟩
    have hk1 : k1 < old.length := by omega
    simp [hk1, ha, hlt, hb]
  · rw [if_neg hj]
    have e1 : (j < k1 + 1 ∧ j + frame.length < old.length)
        ↔ (j < k1 ∧ j + frame.length < old.length) := by omega
    simp only [e1]

/-- One copy: `buffer[k2+n] := frame[k2]`. -/
theorem set_copy_updatedUpTo {α : Type} (frame old : List α) (k1 k2 : Nat) (f : α)
    (hk1 : k1 ≤ frame.length) (hlt : k2 + frame.length < old.length)
    (hf : frame[k2]? = some f) :
    (updatedUpTo frame old k1 k2).set (k2 + frame.length) f
      = updatedUpTo frame old k1 (k2 + 1) := by
  apply List.ext_getElem?
  intro j
  rw [List.getElem?_set, getElem?_updatedUpTo, getElem?_updatedUpTo,
    length_updatedUpTo]
  by_cases hj : k2 + frame.length = j
  · subst hj
    obtain ⟨a, ha⟩ : ∃ a, old[k2 + frame.length]? = some a :=
      ⟨old[k2 + frame.length], List.getElem?_eq_getElem hlt⟩
    have h1 : ¬ (k2 + frame.length < k1 ∧ k2 + frame.length + frame.length < old.length) := by
      omega
    simp [hlt, ha, hf]
    rw [if_neg h1]
  · rw [if_neg hj]
    have e2 : (frame.length ≤ j ∧ j - frame.length < k2 + 1)
        ↔ (frame.length ≤ j ∧ j - frame.length < k2) := by omega
    simp only [e2]

/-- An index whose guard `i + n < m` fails changes nothing. -/
theorem updatedUpTo_succ_of_not_lt {α : Type} (frame old : List α) (k1 k2 : Nat)
    (h1 : ¬ k1 + frame.length < old.length) :
    updatedUpTo frame old (k1 + 1) k2 = updatedUpTo frame old k1 k2 := by
  apply List.ext_getElem?
  intro j
  rw [getElem?_updatedUpTo, getElem?_updatedUpTo]
  have e1 : (j < k1 + 1 ∧ j + frame.length < old.length)
      ↔ (j < k1 ∧ j + frame.length < old.length) := by omega
  simp only [e1]

theorem updatedUpTo_succ_of_not_lt_right {α : Type} (frame old : List α) (k1 k2 : Nat)
    (h2 : ¬ k2 + frame.length < old.length) :
    updatedUpTo frame old k1 (k2 + 1) = updatedUpTo frame old k1 k2 := by
  apply List.ext_getElem?
  intro j
  rw [getElem?_updatedUpTo, getElem?_updatedUpTo]
  cases hj : old[j]? with
  | none => rfl
  | some a =>
    have hjl : j < old.length := getElem?_some_lt hj
    have e2 : (frame.length ≤ j ∧ j - frame.length < k2 + 1)
        ↔ (frame.length ≤ j ∧ j - frame.length < k2) := by omega
    simp only [e2]

theorem readAt_updatedUpTo {α : Type} (frame old : List α) (k : Nat) (b : α)
    (hb : old[k + frame.length]? = some b) :
    readAt (updatedUpTo frame old k k) (k + frame.length) = Except.ok b := by
  unfold readAt
  rw [getElem?_updatedUpTo, hb]
  have h1 : ¬ (k + frame.length < k ∧ k + frame.length + frame.length < old.length) := by
    omega
  have h2 : ¬ (frame.length ≤ k + frame.length ∧ k + frame.length - frame.length < k) := by
    omega
  simp [h1, h2]

theorem updateStocInFrameBody_updatedUpTo {α : Type} (frame old : List α) (k : Nat)
    (hk : k < frame.length) :
    updateStocInFrameBody frame (updatedUpTo frame old k k) k
      = Except.ok (updatedUpTo frame old (k + 1) (k + 1)) := by
  unfold updateStocInFrameBody
  rw [length_updatedUpTo]
  by_cases hlt : k + frame.length < old.length
  · rw [if_pos hlt]
    have hk' : k < old.length := by omega
    obtain ⟨b, hb⟩ : ∃ b, old[k + frame.length]? = some b :=
      ⟨old[k + frame.length], List.getElem?_eq_getElem hlt⟩
    obtain ⟨f, hf⟩ : ∃ f, frame[k]? = some f := ⟨frame[k], List.getElem?_eq_getElem hk⟩
    have hread2 : readAt frame k = Except.ok f := by
      unfold readAt
      rw [hf]
    rw [readAt_updatedUpTo frame old k b hb]
    simp only [writeAt, length_updatedUpTo, hk', if_true, hread2, List.length_set, hlt,
      ok_bind]
    rw [set_shift_updatedUpTo frame old k k b hb,
      set_copy_updatedUpTo frame old (k + 1) k f (by omega) hlt hf]
  · rw [if_neg hlt, updatedUpTo_succ_of_not_lt_right frame old (k + 1) k hlt,
      updatedUpTo_succ_of_not_lt frame old k k hlt]

theorem foldlM_updateStocInFrameBody {α : Type} (frame old : List α) (k : Nat)
    (hk : k ≤ frame.length) :
    (List.range k).foldlM (updateStocInFrameBody frame) old
      = Except.ok (updatedUpTo frame old k k) := by
  induction k with
  | zero => simp [updatedUpTo_zero]; rfl
  | succ k ih =>
    rw [List.range_succ, List.foldlM_append, ih (by omega)]
    simp only [List.foldlM_cons, List.foldlM_nil]
    show (updateStocInFrameBody frame (updatedUpTo frame old k k) k >>= pure) = _
    rw [updateStocInFrameBody_updatedUpTo frame old k (by omega)]
    rfl

theorem updateStocInFrame_eq {α : Type} (frame old : List α) :
    updateStocInFrame frame old
      = Except.ok (updatedUpTo frame old frame.length frame.length) :=
  foldlM_updateStocInFrameBody frame old frame.length (le_refl _)

theorem updateTwoPhase_eq {α : Type} (frame old : List α) :
    updateTwoPhase frame old = updatedUpTo frame old frame.length frame.length := by
  have phase1 : ∀ k, k ≤ frame.length →
      (List.range k).foldl
        (fun acc i =>
          if i + frame.length < old.length then
            match old[i + frame.length]? with
            | some a => acc.set i a
            | none => acc
          else acc) old = updatedUpTo frame old k 0 := by
    intro k
    induction k with
    | zero => intro _; simp [updatedUpTo_zero]
    | succ k ih =>
      intro hk
      rw [List.range_succ, List.foldl_append, ih (by omega)]
      simp only [List.foldl_cons, List.foldl_nil]
      by_cases hlt : k + frame.length < old.length
      · rw [if_pos hlt, List.getElem?_eq_getElem hlt]
        exact set_shift_updatedUpTo frame old k 0 _ (List.getElem?_eq_getElem hlt)
      · rw [if_neg hlt, updatedUpTo_succ_of_not_lt frame old k 0 hlt]
  have phase2 : ∀ k, k ≤ frame.length →
      (List.range k).foldl
        (fun acc i =>
          if i + frame.length < old.length then
            match frame[i]? with
            | some a => acc.set (i + frame.length) a
            | none => acc
          else acc) (updatedUpTo frame old frame.length 0)
        = updatedUpTo frame old frame.length k := by
    intro k
    induction k with
    | zero => intro _; simp
    | succ k ih =>
      intro hk
      rw [List.range_succ, List.foldl_append, ih (by omega)]
      simp only [List.foldl_cons, List.foldl_nil]
      have hkf : k < frame.length := by omega
      by_cases hlt : k + frame.length < old.length
      · rw [if_pos hlt, List.getElem?_eq_getElem hkf]
        exact set_copy_updatedUpTo frame old frame.length k _ (le_refl _) hlt
          (List.getElem?_eq_getElem hkf)
      · rw [if_neg hlt, updatedUpTo_succ_of_not_lt_right frame old frame.length k hlt]
  unfold updateTwoPhase
  simp only []
  rw [phase1 frame.length (le_refl _), phase2 frame.length (le_refl _)]

theorem updatedUpTo_append {α : Type} (A B F : List α) (h : A.length = B.length)
    (hF : F.length = B.length) :
    updatedUpTo F (A ++ B) F.length F.length = B ++ F := by
  apply List.ext_getElem?
  intro j
  rw [getElem?_updatedUpTo]
  rcases Nat.lt_or_ge j B.length with h1 | h1
  · have hA : j < A.length := by omega
    rw [List.getElem?_append_left hA, List.getElem?_append_left h1,
      List.getElem?_eq_getElem hA, List.getElem?_eq_getElem h1]
    have c1 : j < F.length ∧ j + F.length < (A ++ B).length := by
      rw [List.length_append]; omega
    simp only [Option.map_some', if_pos c1]
    rw [List.getElem?_append_right (by omega)]
    have e : j + F.length - A.length = j := by omega
    rw [e, List.getElem?_eq_getElem h1]
    rfl
  · have hx : (A ++ B)[j]? = B[j - B.length]? := by
      rw [List.getElem?_append_right (by omega), h]
    rw [hx, List.getElem?_append_right h1]
    rcases Nat.lt_or_ge (j - B.length) B.length with h2 | h2
    · have hF2 : j - B.length < F.length := by omega
      rw [List.getElem?_eq_getElem h2, List.getElem?_eq_getElem hF2]
      have c1 : ¬ (j < F.length ∧ j + F.length < (A ++ B).length) := by omega
      have c2 : F.length ≤ j ∧ j - F.length < F.length := by omega
      simp only [Option.map_some', if_neg c1, if_pos c2]
      have e2 : j - F.length = j - B.length := by omega
      rw [e2, List.getElem?_eq_getElem hF2]
      rfl
    · have hy : F[j - B.length]? = none := List.getElem?_eq_none (by omega)
      rw [List.getElem?_eq_none h2, hy]
      rfl

theorem length_of_forall_mem {α : Type} (hopSize : Nat) (frames : List (List α))
    (hlen : ∀ F ∈ frames, F.length = hopSize) (i : Nat) (F : List α)
    (hF : frames[i]? = some F) : F.length = hopSize :=
  hlen F (List.getElem?_mem hF)

/-- The buffer after the pushes of the first `k + 1` frames into the zero accumulator. -/
theorem pushFrames_take_succ {α : Type} [Zero α] (hopSize : Nat) (frames : List (List α))
    (hlen : ∀ F ∈ frames, F.length = hopSize) (k : Nat) (hk : k < frames.length) :
    pushFrames (frames.take (k + 1)) (configureStocFrameIn hopSize)
      = Except.ok ((if k = 0 then List.replicate hopSize 0 else (frames[k - 1]?).getD [])
          ++ frames[k]) := by
  induction k with
  | zero =>
    have hF : (frames[0]).length = hopSize :=
      length_of_forall_mem hopSize frames hlen 0 _ (List.getElem?_eq_getElem hk)
    have hz : (configureStocFrameIn hopSize : List α)
        = List.replicate hopSize 0 ++ List.replicate hopSize 0 := by
      rw [configureStocFrameIn, List.append_replicate_replicate]
      congr 1
      omega
    rw [List.take_succ, List.getElem?_eq_getElem hk]
    simp only [List.take_zero, List.nil_append, Option.toList_some, pushFrames,
      List.foldlM_cons, List.foldlM_nil, if_true]
    rw [hz, updateStocInFrame_eq,
      updatedUpTo_append _ _ _ (by simp) (by simp [hF])]
    rfl
  | succ k ih =>
    have hk' : k < frames.length := by omega
    have hF : (frames[k + 1]).length = hopSize :=
      length_of_forall_mem hopSize frames hlen (k + 1) _ (List.getElem?_eq_getElem hk)
    have hG : (frames[k]).length = hopSize :=
      length_of_forall_mem hopSize frames hlen k _ (List.getElem?_eq_getElem hk')
    have hP : (if k = 0 then List.replicate hopSize (0 : α)
        else (frames[k - 1]?).getD []).length = hopSize := by
      by_cases h0 : k = 0
      · simp [h0]
      · rw [if_neg h0]
        have hk1 : k - 1 < frames.length := by omega
        rw [List.getElem?_eq_getElem hk1]
        exact length_of_forall_mem hopSize frames hlen (k - 1) _
          (List.getElem?_eq_getElem hk1)
    have ih' := ih hk'
    rw [List.take_succ, List.getElem?_eq_getElem hk]
    unfold pushFrames at ih' ⊢
    rw [List.foldlM_append, ih']
    simp only [Option.toList_some, List.foldlM_cons, List.foldlM_nil, ok_bind]
    rw [updateStocInFrame_eq, updatedUpTo_append _ _ _ (by rw [hP, hG]) (by rw [hF, hG])]
    simp [List.getElem?_eq_getElem hk']

theorem two_mul_le_subtrFFTSize_iff (hopSize : Int) (h : 0 < hopSize) :
    2 * hopSize ≤ subtrFFTSize hopSize ↔ hopSize ≤ 256 := by
  unfold subtrFFTSize
  constructor
  · intro h2
    have := le_trans h2 (min_le_left _ _)
    omega
  · intro h2
    exact le_min (by omega) (by omega)

theorem truncToInt_of_nonneg {K : Type} [LinearOrderedField K] [FloorRing K] (x : K)
    (h : 0 ≤ x) : truncToInt x = Int.floor x := by
  simp [truncToInt, h]

theorem logb_ten_epsilon : Real.logb 10 (0 + 1e-10) = -10 := by
  have h : (0 + 1e-10 : ℝ) = ((10 : ℝ) ^ 10)⁻¹ := by norm_num
  rw [h, Real.logb_inv, Real.logb_pow, Real.logb_self_eq_one (by norm_num)]
  norm_num

theorem logMagnitude_zero : logMagnitude Real.sqrt (Real.logb 10) ((0, 0) : ℝ × ℝ) = -200 := by
  unfold logMagnitude
  simp only [mul_zero, add_zero, Real.sqrt_zero]
  rw [logb_ten_epsilon]
  norm_num

theorem stochasticModelAnalOld_of_clamp_one {K C : Type} [LinearOrderedField K] [FloorRing K]
    [Zero C] (sqrt log10 : K → K) (fftres : List K → List C) (ifftres : List C → List K)
    (stocfParam : K) (fftSize : Int) (fftRes : List (K × K))
    (hclamp : clampStocf stocfParam = 1) :
    stochasticModelAnalOld sqrt log10 fftres ifftres stocfParam fftSize fftRes
      = Except.ok (fftRes.map (logMagnitude sqrt log10)) := by
  unfold stochasticModelAnalOld
  simp only [hclamp, if_true]

theorem clampStocf_one {K : Type} [LinearOrderedField K] : clampStocf (1 : K) = 1 := by
  unfold clampStocf
  rw [max_eq_right (by norm_num), min_self]

/-! ## Lemmas on the two loops of `resample` -/

theorem set_append_cons {α : Type} (P : List α) (s v : α) (S : List α) :
    (P ++ s :: S).set P.length v = (P ++ [v]) ++ S := by
  induction P with
  | nil => rfl
  | cons p P ih => simp [List.set, ih]

theorem readAt_append_cons {α : Type} (P : List α) (s : α) (S : List α) :
    readAt (P ++ s :: S) P.length = Except.ok s := by
  unfold readAt
  rw [List.getElem?_append_right (le_refl _), Nat.sub_self]
  simp

theorem writeAt_append_cons {α : Type} (P : List α) (s v : α) (S : List α) :
    writeAt (P ++ s :: S) P.length v = Except.ok ((P ++ [v]) ++ S) := by
  unfold writeAt
  rw [if_pos (by simp), set_append_cons]

/-- The copy loop of `resample`: the first `k` bins of `src` replace those of `dst`. -/
theorem foldlM_copy {C : Type} (src dst : List C) (k : Nat) (hs : k ≤ src.length)
    (hd : k ≤ dst.length) :
    (List.range k).foldlM
      (fun acc i => do
        let bin ← readAt src i
        writeAt acc i bin) dst = Except.ok (src.take k ++ dst.drop k) := by
  induction k with
  | zero => simp; rfl
  | succ k ih =>
    have hk : k < src.length := by omega
    have hk2 : k < dst.length := by omega
    have hr : readAt src k = Except.ok src[k] := by
      unfold readAt
      rw [List.getElem?_eq_getElem hk]
    have hlen : (src.take k).length = k := by
      rw [List.length_take]
      omega
    have hw : writeAt (src.take k ++ dst.drop k) k src[k]
        = Except.ok (src.take (k + 1) ++ dst.drop (k + 1)) := by
      rw [List.drop_eq_getElem_cons hk2, List.take_succ, List.getElem?_eq_getElem hk]
      have h := writeAt_append_cons (src.take k) dst[k] src[k] (dst.drop (k + 1))
      rw [hlen] at h
      exact h
    rw [List.range_succ, List.foldlM_append, ih (by omega) (by omega)]
    simp only [List.foldlM_cons, List.foldlM_nil, ok_bind, hr, hw]
    rfl

/-- The normalisation loop of `resample`: the first `k` samples are multiplied by the gain. -/
theorem foldlM_scale {K : Type} [Mul K] (out : List K) (gain : K) (k : Nat)
    (hk : k ≤ out.length) :
    (List.range k).foldlM
      (fun acc i => do
        let sample ← readAt acc i
        writeAt acc i (sample * gain)) out
      = Except.ok ((out.take k).map (fun sample => sample * gain) ++ out.drop k) := by
  induction k with
  | zero => simp; rfl
  | succ k ih =>
    have hk2 : k < out.length := by omega
    have hlen : ((out.take k).map (fun sample => sample * gain)).length = k := by
      rw [List.length_map, List.length_take]
      omega
    have hr : readAt ((out.take k).map (fun sample => sample * gain) ++ out.drop k) k
        = Except.ok out[k] := by
      rw [List.drop_eq_getElem_cons hk2]
      have h := readAt_append_cons ((out.take k).map (fun sample => sample * gain)) out[k]
        (out.drop (k + 1))
      rw [hlen] at h
      exact h
    have hw : writeAt ((out.take k).map (fun sample => sample * gain) ++ out.drop k) k
        (out[k] * gain)
        = Except.ok ((out.take (k + 1)).map (fun sample => sample * gain)
            ++ out.drop (k + 1)) := by
      rw [List.drop_eq_getElem_cons hk2, List.take_succ, List.getElem?_eq_getElem hk2]
      have h := writeAt_append_cons ((out.take k).map (fun sample => sample * gain)) out[k]
        (out[k] * gain) (out.drop (k + 1))
      rw [hlen] at h
      rw [h, List.map_append]
      rfl
    rw [List.range_succ, List.foldlM_append, ih (by omega)]
    simp only [List.foldlM_cons, List.foldlM_nil, ok_bind, hr, hw]
    rfl

/-! ## Lemmas on the transforms of a constant sequence -/

theorem truncToInt_half_add_one {K : Type} [LinearOrderedField K] [FloorRing K] (n : Nat)
    (h : Even n) : truncToInt (((n : Int) : K) / 2 + 1) = ((n / 2 + 1 : Nat) : Int) := by
  obtain ⟨m, rfl⟩ := h
  have e : (((m + m : Nat) : Int) : K) / 2 + 1 = (((m + 1 : Nat) : Int) : K) := by
    push_cast
    ring
  have e2 : (m + m) / 2 + 1 = m + 1 := by omega
  rw [e, truncToInt_of_nonneg _ (by positivity), Int.floor_intCast, e2]

theorem sum_exp_eq_zero (N k : Nat) (hk0 : 0 < k) (hkN : k < N) :
    ∑ n in Finset.range N,
      Complex.exp (-(2 * Real.pi * Complex.I * (k : ℂ) * (n : ℂ) / (N : ℂ))) = 0 := by
  have hN : N ≠ 0 := by omega
  have hNc : (N : ℂ) ≠ 0 := Nat.cast_ne_zero.mpr hN
  have hroot := Complex.isPrimitiveRoot_exp N hN
  have hterm : ∀ n : Nat,
      Complex.exp (-(2 * Real.pi * Complex.I * (k : ℂ) * (n : ℂ) / (N : ℂ)))
        = Complex.exp (-(2 * Real.pi * Complex.I * (k : ℂ) / (N : ℂ))) ^ n := by
    intro n
    rw [← Complex.exp_nat_mul]
    congr 1
    ring
  have hx1 : Complex.exp (-(2 * Real.pi * Complex.I * (k : ℂ) / (N : ℂ))) ≠ 1 := by
    intro h
    have hpow : Complex.exp (2 * Real.pi * Complex.I / (N : ℂ)) ^ k = 1 := by
      rw [← Complex.exp_nat_mul]
      have e : (k : ℂ) * (2 * Real.pi * Complex.I / (N : ℂ))
          = -(-(2 * Real.pi * Complex.I * (k : ℂ) / (N : ℂ))) := by ring
      rw [e, Complex.exp_neg, h, inv_one]
    exact hroot.pow_ne_one_of_pos_of_lt hk0 hkN hpow
  have hxN : Complex.exp (-(2 * Real.pi * Complex.I * (k : ℂ) / (N : ℂ))) ^ N = 1 := by
    rw [← Complex.exp_nat_mul]
    have e : (N : ℂ) * -(2 * Real.pi * Complex.I * (k : ℂ) / (N : ℂ))
        = -((k : ℂ) * (2 * Real.pi * Complex.I)) := by
      field_simp
      ring
    rw [e, Complex.exp_neg, Complex.exp_nat_mul_two_pi_mul_I, inv_one]
  simp only [hterm]
  rw [geom_sum_eq hx1, hxN, sub_self, zero_div]

theorem getD_replicate_zero {α : Type} [Zero α] (r j : Nat) :
    (List.replicate r (0 : α)).getD j 0 = 0 := by
  rw [List.getD_eq_getElem?_getD, List.getElem?_replicate]
  split_ifs <;> rfl

/-- The forward transform of a constant sequence: `N*c` at bin `0`, zero at the other bins. -/
theorem forwardTransform_replicate (c : ℝ) (N : Nat) :
    forwardTransform (List.replicate N c)
      = ((N : ℂ) * (c : ℂ)) :: List.replicate (N / 2) 0 := by
  have hbin : ∀ k : Nat,
      (∑ n in Finset.range N,
        (((List.replicate N c).getD n 0 : ℝ) : ℂ)
          * Complex.exp (-(2 * Real.pi * Complex.I * (k : ℂ) * (n : ℂ) / (N : ℂ))))
        = (c : ℂ) * ∑ n in Finset.range N,
            Complex.exp (-(2 * Real.pi * Complex.I * (k : ℂ) * (n : ℂ) / (N : ℂ))) := by
    intro k
    rw [Finset.mul_sum]
    apply Finset.sum_congr rfl
    intro n hn
    rw [List.getD_eq_getElem?_getD, List.getElem?_replicate_of_lt (Finset.mem_range.mp hn)]
    rfl
  unfold forwardTransform
  rw [List.length_replicate, List.range_succ_eq_map, List.map_cons, List.map_map]
  congr 1
  · rw [hbin 0]
    simp [mul_comm]
  · rw [List.eq_replicate_iff]
    refine ⟨by simp, ?_⟩
    intro b hb
    rw [List.mem_map] at hb
    obtain ⟨k, hk, rfl⟩ := hb
    rw [List.mem_range] at hk
    show (∑ n in Finset.range N,
        (((List.replicate N c).getD n 0 : ℝ) : ℂ)
          * Complex.exp (-(2 * Real.pi * Complex.I * ((k + 1 : Nat) : ℂ) * (n : ℂ) / (N : ℂ))))
      = 0
    rw [hbin (k + 1), sum_exp_eq_zero N (k + 1) (by omega) (by omega), mul_zero]

/-- The inverse transform of a spectrum that is zero outside bin `0`: a constant sequence. -/
theorem inverseTransform_dc (size r : Nat) (a : ℂ) :
    inverseTransform size (a :: List.replicate r 0) = List.replicate size a.re := by
  unfold inverseTransform
  rw [List.eq_replicate_iff]
  refine ⟨by simp, ?_⟩
  intro b hb
  rw [List.mem_map] at hb
  obtain ⟨n, hn, rfl⟩ := hb
  rw [List.mem_range] at hn
  have hsum : (∑ k in Finset.range size,
      hermitianBin size (a :: List.replicate r 0) k
        * Complex.exp (2 * Real.pi * Complex.I * (k : ℂ) * (n : ℂ) / (size : ℂ))) = a := by
    rw [Finset.sum_eq_single 0]
    · simp [hermitianBin]
    · intro k hk hk0
      rw [Finset.mem_range] at hk
      have hz : hermitianBin size (a :: List.replicate r 0) k = 0 := by
        unfold hermitianBin
        obtain ⟨j, rfl⟩ : ∃ j, k = j + 1 := ⟨k - 1, by omega⟩
        split_ifs with h2
        · rw [List.getD_cons_succ, getD_replicate_zero]
        · obtain ⟨i, hi⟩ : ∃ i, size - (j + 1) = i + 1 := ⟨size - (j + 1) - 1, by omega⟩
          rw [hi, List.getD_cons_succ, getD_replicate_zero, map_zero]
      rw [hz, zero_mul]
    · intro h0
      exact absurd (Finset.mem_range.mpr (by omega)) h0
  rw [hsum]

theorem take_append_drop_dc {α : Type} [Zero α] (a : α) (p q k : Nat) (hk0 : 0 < k)
    (hkp : k ≤ p + 1) (hkq : k ≤ q + 1) :
    (a :: List.replicate p (0 : α)).take k ++ (List.replicate (q + 1) (0 : α)).drop k
      = a :: List.replicate q 0 := by
  obtain ⟨j, rfl⟩ : ∃ j, k = j + 1 := ⟨k - 1, by omega⟩
  rw [List.take_succ_cons, List.take_replicate, List.drop_replicate, List.cons_append,
    List.append_replicate_replicate]
  congr 2
  omega

/-- Resampling a constant sequence of even length to an even length gives the constant. -/
theorem resample_replicate (c : ℝ) (sizeIn sizeOut : Nat) (hIn : 0 < sizeIn)
    (hInEven : Even sizeIn) (hOutEven : Even sizeOut) :
    resample forwardTransform (inverseTransform sizeOut) (List.replicate sizeIn c)
      (sizeOut : Int) = Except.ok (List.replicate sizeOut c) := by
  have hmin : (min ((sizeIn / 2 + 1 : Nat) : Int) ((sizeOut / 2 + 1 : Nat) : Int)).toNat
      = min (sizeIn / 2 + 1) (sizeOut / 2 + 1) := by omega
  have hgain : (sizeIn : ℝ) * c * (1 / (sizeIn : ℝ)) = c := by
    have : (sizeIn : ℝ) ≠ 0 := Nat.cast_ne_zero.mpr (by omega)
    field_simp
  unfold resample
  simp only [List.length_replicate]
  rw [truncToInt_half_add_one sizeIn hInEven, truncToInt_half_add_one sizeOut hOutEven, hmin,
    forwardTransform_replicate c sizeIn, initializeFFT, Int.toNat_ofNat,
    foldlM_copy _ _ _ (by simp) (by simp)]
  simp only [ok_bind]
  rw [take_append_drop_dc _ _ _ _ (by omega) (by omega) (by omega), inverseTransform_dc,
    Int.toNat_ofNat, foldlM_scale _ _ _ (by simp)]
  congr 1
  rw [List.take_of_length_le (by simp), List.drop_of_length_le (by simp), List.append_nil,
    List.map_replicate]
  congr 1
  simp only [Complex.mul_re, Complex.natCast_re, Complex.ofReal_re, Complex.natCast_im,
    Complex.ofReal_im, mul_zero, sub_zero, Int.cast_natCast]
  exact hgain

/-! ## Lemmas on single-precision rounding and `stocSize` -/

theorem roundHalfEven_nonneg {K : Type} [LinearOrderedField K] [FloorRing K] (x : K)
    (hx : 0 ≤ x) : 0 ≤ roundHalfEven x := by
  have hf : 0 ≤ Int.floor x := Int.floor_nonneg.mpr hx
  unfold roundHalfEven
  simp only []
  split_ifs <;> omega

theorem toBinary32_nonneg {K : Type} [LinearOrderedField K] [FloorRing K] (x : K)
    (hx : 0 ≤ x) : 0 ≤ toBinary32 x := by
  unfold toBinary32
  simp only []
  have h2 : ∀ z : Int, (0 : K) < (2 : K) ^ z := fun z => zpow_pos (by norm_num) z
  have hr := roundHalfEven_nonneg (x / (2 : K) ^ max (Int.log 2 |x| - 23) (-149))
    (div_nonneg hx (h2 _).le)
  exact mul_nonneg (by exact_mod_cast hr) (h2 _).le

/-- A value within less than one half of the integer `m` rounds to `m`. -/
theorem roundHalfEven_eq {K : Type} [LinearOrderedField K] [FloorRing K] (x : K) (m : Int)
    (hlo : (m : K) - 1 / 2 < x) (hhi : x < (m : K) + 1 / 2) : roundHalfEven x = m := by
  unfold roundHalfEven
  simp only []
  rcases le_or_lt (m : K) x with h | h
  · have hf : Int.floor x = m := by
      rw [Int.floor_eq_iff]
      exact ⟨h, by linarith⟩
    rw [hf, if_pos (by linarith)]
  · have hf : Int.floor x = m - 1 := by
      rw [Int.floor_eq_iff]
      push_cast
      exact ⟨by linarith, by linarith⟩
    rw [hf]
    push_cast
    rw [if_neg (by linarith), if_pos (by linarith)]
    omega

theorem log_two_eq {K : Type} [LinearOrderedField K] [FloorRing K] (y : K) (n : Int)
    (hlo : (2 : K) ^ n ≤ y) (hhi : y < (2 : K) ^ (n + 1)) : Int.log 2 y = n := by
  have hy : 0 < y := lt_of_lt_of_le (zpow_pos (by norm_num) n) hlo
  have h1 : n ≤ Int.log 2 y := by
    rw [← Int.zpow_le_iff_le_log (by norm_num) hy]
    exact_mod_cast hlo
  have h2 : Int.log 2 y < n + 1 := by
    rw [← Int.lt_zpow_iff_log_lt (by norm_num) hy]
    exact_mod_cast hhi
  omega

/-- The value of `toBinary32` at `x` with `2^n ≤ |x| < 2^(n+1)`, from the rounded
significand. -/
theorem toBinary32_eq {K : Type} [LinearOrderedField K] [FloorRing K] (x : K) (n m : Int)
    (hlo : (2 : K) ^ n ≤ |x|) (hhi : |x| < (2 : K) ^ (n + 1)) (hn : -149 ≤ n - 23)
    (hm : roundHalfEven (x / (2 : K) ^ (n - 23)) = m) :
    toBinary32 x = (m : K) * (2 : K) ^ (n - 23) := by
  unfold toBinary32
  simp only []
  rw [log_two_eq |x| n hlo hhi, max_eq_left hn, hm]

/-- A number with a 24-bit significand is its own rounding. -/
theorem toBinary32_eq_self {K : Type} [LinearOrderedField K] [FloorRing K] (x : K) (n m : Int)
    (hlo : (2 : K) ^ n ≤ |x|) (hhi : |x| < (2 : K) ^ (n + 1)) (hn : -149 ≤ n - 23)
    (hx : x = (m : K) * (2 : K) ^ (n - 23)) : toBinary32 x = x := by
  have hne : (2 : K) ^ (n - 23) ≠ 0 := (zpow_pos (by norm_num) _).ne'
  have hm : roundHalfEven (x / (2 : K) ^ (n - 23)) = m := by
    have hq : x / (2 : K) ^ (n - 23) = (m : K) := by
      rw [hx]
      field_simp
    rw [hq]
    exact roundHalfEven_eq _ m (by linarith) (by linarith)
  rw [toBinary32_eq x n m hlo hhi hn hm, ← hx]

/-- The adjustment `stocSize += stocSize % 2` of a non-negative `int`. -/
theorem evenAdjust {s : Int} (hs : 0 ≤ s) :
    Even (s + Int.tmod s 2) ∧ s ≤ s + Int.tmod s 2 ∧ s + Int.tmod s 2 ≤ s + 1
      ∧ ∀ e : Int, Even e → s ≤ e → s + Int.tmod s 2 ≤ e := by
  rw [Int.tmod_eq_emod hs (by decide)]
  have hm : s % 2 = 0 ∨ s % 2 = 1 := Int.emod_two_eq s
  refine ⟨?_, by omega, by omega, ?_⟩
  · rw [Int.even_iff]
    omega
  · intro e he hle
    rw [Int.even_iff] at he
    omega

theorem toBinary32_512 : toBinary32 (((512 : Int) : ℚ)) = 512 := by
  have h := toBinary32_eq_self (512 : ℚ) 9 8388608 (by norm_num) (by norm_num) (by norm_num)
    (by norm_num)
  exact_mod_cast h

theorem toBinary32_9 : toBinary32 (9 : ℚ) = 9 :=
  toBinary32_eq_self (9 : ℚ) 3 9437184 (by norm_num) (by norm_num) (by norm_num) (by norm_num)

theorem toBinary32_256 : toBinary32 (256 : ℚ) = 256 :=
  toBinary32_eq_self (256 : ℚ) 8 8388608 (by norm_num) (by norm_num) (by norm_num)
    (by norm_num)

theorem toBinary32_20 : toBinary32 (((20 : Int) : ℚ)) = 20 := by
  have h := toBinary32_eq_self (20 : ℚ) 4 10485760 (by norm_num) (by norm_num) (by norm_num)
    (by norm_num)
  exact_mod_cast h

/-- The rounding of the product decides the result: for `stocf = 0.7f` (the `float`
`11744051 / 2^24`) and `fftSize = 20` the product `13.9999997...` rounds to the `float` `14`,
so `stocSize` is `8`, where the exact product would give `6`. -/
theorem stocSize_rounded_product :
    stocSize (11744051 / 16777216 : ℚ) 20 = 8
      ∧ truncToInt ((11744051 / 16777216 : ℚ) * 20 / 2) = 6 := by
  have hr : roundHalfEven ((11744051 / 16777216 * 20 : ℚ) / (2 : ℚ) ^ ((3 : Int) - 23))
      = 14680064 :=
    roundHalfEven_eq _ 14680064 (by norm_num) (by norm_num)
  have hp : toBinary32 (11744051 / 16777216 * 20 : ℚ) = 14 := by
    rw [toBinary32_eq _ 3 14680064 (by norm_num [abs_of_pos]) (by norm_num [abs_of_pos])
      (by norm_num) hr]
    norm_num
  have ht : truncToInt ((14 : ℚ) / 2) = 7 := by
    have e : (14 : ℚ) / 2 = ((7 : Int) : ℚ) := by norm_num
    rw [e, truncToInt_of_nonneg _ (by norm_num), Int.floor_intCast]
  have ht2 : truncToInt ((11744051 / 16777216 : ℚ) * 20 / 2) = 6 := by
    rw [truncToInt_of_nonneg _ (by norm_num), Int.floor_eq_iff]
    norm_num
  refine ⟨?_, ht2⟩
  unfold stocSize
  simp only []
  rw [toBinary32_20, hp, ht]
  rfl

/-! ## The claims -/

/-- C1: for `hopSize > 0`, an accumulator `[A, B]` with `A` and `B` of length `hopSize` and a
frame `F` of length `hopSize`, `updateStocInFrame` returns and leaves the buffer equal to
`[B, F]`: its first `hopSize` samples are `B` and its last `hopSize` samples are `F`. -/
theorem updateStocInFrame_window {α : Type} (hopSize : Nat) (A B F : List α)
    (hpos : 0 < hopSize) (hA : A.length = hopSize) (hB : B.length = hopSize)
    (hF : F.length = hopSize) :
    updateStocInFrame F (A ++ B) = Except.ok (B ++ F)
      ∧ (B ++ F).take hopSize = B ∧ (B ++ F).drop hopSize = F := by
  have _ := hpos
  refine ⟨?_, ?_, ?_⟩
  · rw [updateStocInFrame_eq, updatedUpTo_append A B F (by omega) (by omega)]
  · rw [← hB, List.take_left]
  · rw [← hB, List.drop_left]

theorem updateStocInFrame_window_witness :
    updateStocInFrame [5, 6] ([1, 2] ++ [3, (4 : Int)]) = Except.ok ([3, 4] ++ [5, 6])
      ∧ ([3, 4] ++ [5, (6 : Int)]).take 2 = [3, 4]
      ∧ ([3, 4] ++ [5, (6 : Int)]).drop 2 = [5, 6] :=
  updateStocInFrame_window 2 [1, 2] [3, 4] [5, 6] (by decide) rfl rfl rfl

/-- C2: for `hopSize > 0` and a non-empty sequence of frames of length `hopSize` pushed one
after another into the accumulator of `configure` (`2*hopSize` zeros), the `k`-th push
(`1 ≤ k ≤ N`) returns a buffer of length `2*hopSize` whose last `hopSize` samples are the
`k`-th frame and whose first `hopSize` samples are the `(k-1)`-th frame when `k > 1` and all
zero when `k = 1`. -/
theorem pushFrames_window {α : Type} [Zero α] (hopSize : Nat) (frames : List (List α))
    (k : Nat) (hpos : 0 < hopSize) (hne : frames ≠ [])
    (hlen : ∀ F ∈ frames, F.length = hopSize) (hk1 : 1 ≤ k) (hk : k ≤ frames.length) :
    ∃ buffer : List α,
      pushFrames (frames.take k) (configureStocFrameIn hopSize) = Except.ok buffer
        ∧ buffer.length = 2 * hopSize
        ∧ frames[k - 1]? = some (buffer.drop hopSize)
        ∧ (k = 1 → buffer.take hopSize = List.replicate hopSize 0)
        ∧ (1 < k → frames[k - 2]? = some (buffer.take hopSize)) := by
  have _ := hpos
  have _ := hne
  obtain ⟨j, rfl⟩ : ∃ j, k = j + 1 := ⟨k - 1, by omega⟩
  have hj : j < frames.length := by omega
  have hF : (frames[j]).length = hopSize :=
    length_of_forall_mem hopSize frames hlen j _ (List.getElem?_eq_getElem hj)
  have hP : (if j = 0 then List.replicate hopSize (0 : α)
      else (frames[j - 1]?).getD []).length = hopSize := by
    by_cases h0 : j = 0
    · simp [h0]
    · rw [if_neg h0]
      have hj1 : j - 1 < frames.length := by omega
      rw [List.getElem?_eq_getElem hj1]
      exact length_of_forall_mem hopSize frames hlen (j - 1) _
        (List.getElem?_eq_getElem hj1)
  refine ⟨_, pushFrames_take_succ hopSize frames hlen j hj, ?_, ?_, ?_, ?_⟩
  · rw [List.length_append, hP, hF]
    omega
  · rw [Nat.add_sub_cancel, List.getElem?_eq_getElem hj, List.drop_left' hP]
  · intro h1
    have h0 : j = 0 := by omega
    rw [List.take_left' hP, if_pos h0]
  · intro h1
    have h0 : ¬ j = 0 := by omega
    have hj1 : j - 1 < frames.length := by omega
    have e : j + 1 - 2 = j - 1 := by omega
    rw [List.take_left' hP, if_neg h0, e, List.getElem?_eq_getElem hj1]
    rfl

theorem pushFrames_window_witness :
    ∃ buffer : List Int,
      pushFrames (([[1, 2], [3, 4], [5, 6]] : List (List Int)).take 3) (configureStocFrameIn 2)
          = Except.ok buffer
        ∧ buffer.length = 2 * 2
        ∧ ([[1, 2], [3, 4], [5, 6]] : List (List Int))[3 - 1]? = some (buffer.drop 2)
        ∧ (3 = 1 → buffer.take 2 = List.replicate 2 0)
        ∧ (1 < 3 → ([[1, 2], [3, 4], [5, 6]] : List (List Int))[3 - 2]?
            = some (buffer.take 2)) :=
  pushFrames_window 2 [[1, 2], [3, 4], [5, 6]] 3 (by decide) (by decide) (by decide)
    (by decide) (by decide)

/-- C3, as stated, fails: with `hopSize = 2`, the accumulator `[0, 0, 0, 0]` and the frame `[1]`
of length `1 ≠ hopSize`, `updateStocInFrame` does not fail with `InvalidArgument`; it returns
the buffer `[0, 1, 0, 0]`. -/
theorem updateStocInFrame_mismatch_returns :
    ([0, 0, 0, 0] : List Int).length = 2 * 2 ∧ ([1] : List Int).length ≠ 2
      ∧ updateStocInFrame [1] [0, 0, 0, (0 : Int)] = Except.ok [0, 1, 0, 0]
      ∧ updateStocInFrame [1] [0, 0, 0, (0 : Int)] ≠ Except.error Failure.invalidArgument := by
  refine ⟨rfl, by decide, rfl, ?_⟩
  intro h
  have h2 : updateStocInFrame [1] [0, 0, 0, (0 : Int)] = Except.ok [0, 1, 0, 0] := rfl
  rw [h2] at h
  cases h

/-- C3, amended: `updateStocInFrame` fails in no case. For every frame and every accumulator,
of any lengths (also a frame whose length differs from `hopSize`), it returns a buffer of the
length of the accumulator, and no error, `InvalidArgument` or other, is raised. -/
theorem updateStocInFrame_never_fails {α : Type} (frame buffer : List α) :
    (∃ result : List α,
      updateStocInFrame frame buffer = Except.ok result ∧ result.length = buffer.length)
      ∧ ∀ e : Failure, updateStocInFrame frame buffer ≠ Except.error e := by
  refine ⟨⟨_, updateStocInFrame_eq frame buffer, length_updatedUpTo _ _ _ _⟩, ?_⟩
  intro e h
  rw [updateStocInFrame_eq] at h
  cases h

/-- C10: for a frame and an accumulator of any lengths `n` and `m`, the single forward pass of
`updateStocInFrame` returns the buffer of the two-phase version (all shifts from a snapshot,
then all copies); that buffer has length `m`; and when `n ≥ m` the buffer is unchanged. -/
theorem updateStocInFrame_eq_updateTwoPhase {α : Type} (frame buffer : List α) :
    updateStocInFrame frame buffer = Except.ok (updateTwoPhase frame buffer)
      ∧ (updateTwoPhase frame buffer).length = buffer.length
      ∧ (buffer.length ≤ frame.length →
          updateStocInFrame frame buffer = Except.ok buffer) := by
  refine ⟨?_, ?_, ?_⟩
  · rw [updateTwoPhase_eq, updateStocInFrame_eq]
  · rw [updateTwoPhase_eq, length_updatedUpTo]
  · intro h
    rw [updateStocInFrame_eq]
    congr 1
    apply List.ext_getElem?
    intro j
    rw [getElem?_updatedUpTo]
    cases hj : buffer[j]? with
    | none => rfl
    | some a =>
      have hjl : j < buffer.length := getElem?_some_lt hj
      have c1 : ¬ (j < frame.length ∧ j + frame.length < buffer.length) := by omega
      have c2 : ¬ (frame.length ≤ j ∧ j - frame.length < frame.length) := by omega
      simp only [Option.map_some', if_neg c1, if_neg c2]

theorem updateStocInFrame_eq_updateTwoPhase_witness :
    updateStocInFrame [5, 6, 7] [1, 2, 3, (4 : Int)]
        = Except.ok (updateTwoPhase [5, 6, 7] [1, 2, 3, 4])
      ∧ (updateTwoPhase [5, 6, 7] [1, 2, 3, (4 : Int)]).length = [1, 2, 3, (4 : Int)].length
      ∧ (([1, 2] : List Int).length ≤ [5, 6, (7 : Int)].length →
          updateStocInFrame [5, 6, 7] [1, (2 : Int)] = Except.ok [1, 2]) :=
  ⟨(updateStocInFrame_eq_updateTwoPhase [5, 6, 7] [1, 2, 3, (4 : Int)]).1,
    (updateStocInFrame_eq_updateTwoPhase [5, 6, 7] [1, 2, 3, (4 : Int)]).2.1,
    (updateStocInFrame_eq_updateTwoPhase [5, 6, 7] [1, (2 : Int)]).2.2⟩

/-- C9, at the failing input: with `hopSize = 512` the size that `configure` passes to the
sine subtraction is `min(512, 2048) = 512`, which is less than `2*hopSize = 1024`. -/
theorem subtrFFTSize_512 :
    subtrFFTSize 512 = 512 ∧ ¬ (2 * 512 ≤ subtrFFTSize 512) := by
  decide

/-- C7: the value the estimator uses is `min(max(0.01, stocf), 1)`: it lies in `[0.01, 1]`, is
`0.01` when `stocf < 0.01`, is `1` when `stocf > 1`, is `stocf` itself when
`0.01 ≤ stocf ≤ 1`, and clamping twice is clamping once. -/
theorem clampStocf_spec {K : Type} [LinearOrderedField K] (stocf : K) :
    clampStocf stocf = min (max 0.01 stocf) 1
      ∧ 0.01 ≤ clampStocf stocf ∧ clampStocf stocf ≤ 1
      ∧ (stocf < 0.01 → clampStocf stocf = 0.01)
      ∧ (1 < stocf → clampStocf stocf = 1)
      ∧ (0.01 ≤ stocf → stocf ≤ 1 → clampStocf stocf = stocf)
      ∧ clampStocf (clampStocf stocf) = clampStocf stocf := by
  have h01 : (0.01 : K) ≤ 1 := by norm_num
  have hlo : (0.01 : K) ≤ clampStocf stocf := le_min (le_max_left _ _) h01
  have hhi : clampStocf stocf ≤ 1 := min_le_right _ _
  have hid : ∀ x : K, 0.01 ≤ x → x ≤ 1 → clampStocf x = x := by
    intro x h1 h2
    unfold clampStocf
    rw [max_eq_right h1, min_eq_left h2]
  refine ⟨rfl, hlo, hhi, ?_, ?_, hid stocf, hid _ hlo hhi⟩
  · intro h
    unfold clampStocf
    rw [max_eq_left h.le, min_eq_left h01]
  · intro h
    unfold clampStocf
    exact min_eq_right (le_trans h.le (le_max_right _ _))

theorem clampStocf_spec_witness :
    clampStocf (0.001 : ℚ) = 0.01 ∧ clampStocf (5 : ℚ) = 1 ∧ clampStocf (0.2 : ℚ) = 0.2 :=
  ⟨(clampStocf_spec (0.001 : ℚ)).2.2.2.1 (by norm_num),
    (clampStocf_spec (5 : ℚ)).2.2.2.2.1 (by norm_num),
    (clampStocf_spec (0.2 : ℚ)).2.2.2.2.2.1 (by norm_num) (by norm_num)⟩

/-- C4, as stated, fails: with `stocf = 9/512 = 0.017578125` (a `float`, in the claimed range)
and `fftSize = 512`, the product is `9` and `stocf*fftSize/2 = 4.5`; the code truncates it to
`4`, which is even, so `stocSize = 4`, which is not greater than or equal to `4.5`. -/
theorem stocSize_below_product :
    (0 : ℚ) < 9 / 512 ∧ (9 / 512 : ℚ) < 1 ∧ (0 : Int) < 512 ∧ Even (512 : Int)
      ∧ stocSize (9 / 512 : ℚ) 512 = 4
      ∧ ¬ ((9 / 512 : ℚ) * ((512 : Int) : ℚ) / 2
            ≤ ((stocSize (9 / 512 : ℚ) 512 : Int) : ℚ)) := by
  have h : stocSize (9 / 512 : ℚ) 512 = 4 := by
    have hp : (9 / 512 : ℚ) * 512 = 9 := by norm_num
    have hf : Int.floor (9 / 2 : ℚ) = 4 := by
      rw [Int.floor_eq_iff]
      norm_num
    unfold stocSize
    simp only []
    rw [toBinary32_512, hp, toBinary32_9, truncToInt_of_nonneg _ (by norm_num), hf]
    rfl
  refine ⟨by norm_num, by norm_num, by norm_num, by decide, h, ?_⟩
  rw [h]
  norm_num

/-- C4, amended: for `0 < stocf < 1` and a positive even `fftSize`, `stocSize` is an even
integer and is the least even integer greater than or equal to the integer truncation the
code computes, that of half the single-precision product `stocf*fftSize`; when `fftSize` and
the product are exact in single precision, that truncation is the one of `stocf*fftSize/2`
and `stocSize` lies within `1` of `stocf*fftSize/2`; and for `fftSize = 512`, `stocf = 0.5`
it is `128`. -/
theorem stocSize_even_of_trunc {K : Type} [LinearOrderedField K] [FloorRing K] (stocf : K)
    (fftSize : Int) (h0 : 0 < stocf) (h1 : stocf < 1) (hpos : 0 < fftSize)
    (heven : Even fftSize) :
    Even (stocSize stocf fftSize)
      ∧ truncToInt (toBinary32 (stocf * toBinary32 (fftSize : K)) / 2) ≤ stocSize stocf fftSize
      ∧ (∀ e : Int, Even e →
          truncToInt (toBinary32 (stocf * toBinary32 (fftSize : K)) / 2) ≤ e →
          stocSize stocf fftSize ≤ e)
      ∧ (toBinary32 (fftSize : K) = (fftSize : K) →
          toBinary32 (stocf * (fftSize : K)) = stocf * (fftSize : K) →
          truncToInt (toBinary32 (stocf * toBinary32 (fftSize : K)) / 2)
              = truncToInt (stocf * (fftSize : K) / 2)
            ∧ stocf * (fftSize : K) / 2 - 1 < ((stocSize stocf fftSize : Int) : K)
            ∧ ((stocSize stocf fftSize : Int) : K) ≤ stocf * (fftSize : K) / 2 + 1)
      ∧ stocSize (0.5 : ℚ) 512 = 128 := by
  have _ := h1
  have _ := heven
  have hsize : (0 : K) ≤ toBinary32 (fftSize : K) :=
    toBinary32_nonneg _ (by exact_mod_cast hpos.le)
  have hprod : (0 : K) ≤ toBinary32 (stocf * toBinary32 (fftSize : K)) :=
    toBinary32_nonneg _ (mul_nonneg h0.le hsize)
  have hhalf : (0 : K) ≤ toBinary32 (stocf * toBinary32 (fftSize : K)) / 2 := by positivity
  have ht : truncToInt (toBinary32 (stocf * toBinary32 (fftSize : K)) / 2)
      = Int.floor (toBinary32 (stocf * toBinary32 (fftSize : K)) / 2) :=
    truncToInt_of_nonneg _ hhalf
  have hs0 : 0 ≤ truncToInt (toBinary32 (stocf * toBinary32 (fftSize : K)) / 2) := by
    rw [ht]
    exact Int.floor_nonneg.mpr hhalf
  have hdef : stocSize stocf fftSize
      = truncToInt (toBinary32 (stocf * toBinary32 (fftSize : K)) / 2)
        + Int.tmod (truncToInt (toBinary32 (stocf * toBinary32 (fftSize : K)) / 2)) 2 := rfl
  obtain ⟨hE, hle, hle1, hmin⟩ := evenAdjust hs0
  refine ⟨by rw [hdef]; exact hE, by rw [hdef]; exact hle, ?_, ?_, ?_⟩
  · intro e he h
    rw [hdef]
    exact hmin e he h
  · intro hrep1 hrep2
    have hx : (0 : K) ≤ stocf * (fftSize : K) / 2 := by
      have : (0 : K) < (fftSize : K) := by exact_mod_cast hpos
      positivity
    have hfl := Int.floor_le (stocf * (fftSize : K) / 2)
    have hfu := Int.lt_floor_add_one (stocf * (fftSize : K) / 2)
    rw [hdef, hrep1, hrep2, truncToInt_of_nonneg _ hx]
    rw [hrep1, hrep2, truncToInt_of_nonneg _ hx] at hle hle1
    refine ⟨rfl, ?_, ?_⟩
    · have : ((Int.floor (stocf * (fftSize : K) / 2) : Int) : K)
          ≤ ((Int.floor (stocf * (fftSize : K) / 2)
              + Int.tmod (Int.floor (stocf * (fftSize : K) / 2)) 2 : Int) : K) := by
        exact_mod_cast hle
      linarith
    · have : ((Int.floor (stocf * (fftSize : K) / 2)
              + Int.tmod (Int.floor (stocf * (fftSize : K) / 2)) 2 : Int) : K)
          ≤ ((Int.floor (stocf * (fftSize : K) / 2) : Int) : K) + 1 := by
        exact_mod_cast hle1
      linarith
  · have hp : (0.5 : ℚ) * 512 = 256 := by norm_num
    have e : (256 : ℚ) / 2 = ((128 : Int) : ℚ) := by norm_num
    unfold stocSize
    simp only []
    rw [toBinary32_512, hp, toBinary32_256, e, truncToInt_of_nonneg _ (by norm_num),
      Int.floor_intCast]
    rfl

theorem stocSize_even_of_trunc_witness :
    Even (stocSize (9 / 512 : ℚ) 512)
      ∧ truncToInt (toBinary32 ((9 / 512 : ℚ) * toBinary32 (((512 : Int) : ℚ))) / 2)
          ≤ stocSize (9 / 512 : ℚ) 512
      ∧ (∀ e : Int, Even e →
          truncToInt (toBinary32 ((9 / 512 : ℚ) * toBinary32 (((512 : Int) : ℚ))) / 2) ≤ e →
          stocSize (9 / 512 : ℚ) 512 ≤ e)
      ∧ (truncToInt (toBinary32 ((9 / 512 : ℚ) * toBinary32 (((512 : Int) : ℚ))) / 2)
            = truncToInt ((9 / 512 : ℚ) * ((512 : Int) : ℚ) / 2)
          ∧ (9 / 512 : ℚ) * ((512 : Int) : ℚ) / 2 - 1
              < ((stocSize (9 / 512 : ℚ) 512 : Int) : ℚ)
          ∧ ((stocSize (9 / 512 : ℚ) 512 : Int) : ℚ)
              ≤ (9 / 512 : ℚ) * ((512 : Int) : ℚ) / 2 + 1)
      ∧ stocSize (0.5 : ℚ) 512 = 128 :=
  have h := stocSize_even_of_trunc (9 / 512 : ℚ) 512 (by norm_num) (by norm_num)
    (by norm_num) (by decide)
  ⟨h.1, h.2.1, h.2.2.1,
    h.2.2.2.1 (by rw [toBinary32_512]; norm_num)
      (by
        have hp : (9 / 512 : ℚ) * ((512 : Int) : ℚ) = 9 := by norm_num
        rw [hp, toBinary32_9]),
    h.2.2.2.2⟩

/-- C5: when the clamped `stocf` is `1`, for a residual spectrum of `hN = fftSize/2 + 1` bins
the estimator returns the undecimated log-magnitude sequence: it has length `hN`, and its
`i`-th value is `max(-200, 20*log10(sqrt(re_i^2 + im_i^2) + 1e-10))`; the transforms of the
resampling play no part. -/
theorem stochasticModelAnalOld_stocf_one {K C : Type} [LinearOrderedField K] [FloorRing K]
    [Zero C] (sqrt log10 : K → K) (fftres : List K → List C) (ifftres : List C → List K)
    (stocfParam : K) (fftSize : Int) (fftRes : List (K × K))
    (hclamp : clampStocf stocfParam = 1) (hbins : (fftRes.length : Int) = fftSize / 2 + 1) :
    ∃ stocEnv : List K,
      stochasticModelAnalOld sqrt log10 fftres ifftres stocfParam fftSize fftRes
          = Except.ok stocEnv
        ∧ (stocEnv.length : Int) = fftSize / 2 + 1
        ∧ ∀ i : Nat, ∀ hi : i < fftRes.length,
            stocEnv[i]? = some
              (max (-200)
                (20 * log10 (sqrt ((fftRes[i]).1 ^ 2 + (fftRes[i]).2 ^ 2) + 1e-10))) := by
  refine ⟨_, stochasticModelAnalOld_of_clamp_one sqrt log10 fftres ifftres stocfParam fftSize
    fftRes hclamp, ?_, ?_⟩
  · rw [List.length_map, hbins]
  · intro i hi
    rw [List.getElem?_map, List.getElem?_eq_getElem hi]
    simp only [Option.map_some', logMagnitude, pow_two]

theorem stochasticModelAnalOld_stocf_one_witness :
    ∃ stocEnv : List ℝ,
      stochasticModelAnalOld Real.sqrt (Real.logb 10) forwardTransform (inverseTransform 2)
          1 2 [(3, 4), (0, 0)] = Except.ok stocEnv
        ∧ (stocEnv.length : Int) = 2 / 2 + 1
        ∧ ∀ i : Nat, ∀ hi : i < ([(3, 4), (0, 0)] : List (ℝ × ℝ)).length,
            stocEnv[i]? = some
              (max (-200)
                (20 * Real.logb 10 (Real.sqrt
                  ((([(3, 4), (0, 0)] : List (ℝ × ℝ))[i]).1 ^ 2
                    + (([(3, 4), (0, 0)] : List (ℝ × ℝ))[i]).2 ^ 2) + 1e-10))) :=
  stochasticModelAnalOld_stocf_one Real.sqrt (Real.logb 10) forwardTransform
    (inverseTransform 2) 1 2 [(3, 4), (0, 0)] clampStocf_one (by decide)

/-- C6: over the reals, with `stocf = 1.0` a silent spectrum (every bin `(0, 0)`) gives an
envelope whose every value is exactly `-200 = max(-200, 20*log10(0 + 1e-10))`; the
log-magnitude of every bin of every spectrum is at least `-200`; and for `hopSize = 256`
(`fftSize = 512`, 257 bins) the envelope is 257 values `-200`. -/
theorem stochasticModelAnalOld_silence :
    (∀ (fftres : List ℝ → List ℂ) (ifftres : List ℂ → List ℝ) (fftSize : Int) (n : Nat),
        stochasticModelAnalOld Real.sqrt (Real.logb 10) fftres ifftres 1 fftSize
          (List.replicate n (0, 0)) = Except.ok (List.replicate n (-200)))
      ∧ logMagnitude Real.sqrt (Real.logb 10) (0, 0)
          = max (-200) (20 * Real.logb 10 (0 + 1e-10))
      ∧ max (-200 : ℝ) (20 * Real.logb 10 (0 + 1e-10)) = -200
      ∧ (∀ bin : ℝ × ℝ, -200 ≤ logMagnitude Real.sqrt (Real.logb 10) bin)
      ∧ stochasticModelAnalOld Real.sqrt (Real.logb 10) forwardTransform (inverseTransform 512)
          1 (2 * 256) (List.replicate 257 (0, 0)) = Except.ok (List.replicate 257 (-200)) := by
  have hall : ∀ (fftres : List ℝ → List ℂ) (ifftres : List ℂ → List ℝ) (fftSize : Int)
      (n : Nat),
      stochasticModelAnalOld Real.sqrt (Real.logb 10) fftres ifftres 1 fftSize
        (List.replicate n (0, 0)) = Except.ok (List.replicate n (-200)) := by
    intro fftres ifftres fftSize n
    rw [stochasticModelAnalOld_of_clamp_one _ _ _ _ _ _ _ clampStocf_one, List.map_replicate,
      logMagnitude_zero]
  refine ⟨hall, ?_, ?_, ?_, hall _ _ _ _⟩
  · unfold logMagnitude
    simp only [mul_zero, add_zero, Real.sqrt_zero]
  · rw [logb_ten_epsilon]
    norm_num
  · intro bin
    exact le_max_left _ _

/-- C8: for a constant `c`, an even input length `sizeIn > 0` and an even output length
`sizeOut > 0`, `resample` (forward transform, copy of the first `min(sizeIn/2+1, sizeOut/2+1)`
bins into `sizeOut/2+1` zero bins, unnormalised inverse transform of size `sizeOut`,
multiplication by `1/sizeIn`) applied to `sizeIn` values `c` returns `sizeOut` values `c`; and
resampling that result back to `sizeIn` returns the `sizeIn` values `c` again. -/
theorem resample_constant (c : ℝ) (sizeIn sizeOut : Nat) (hIn : 0 < sizeIn)
    (hInEven : Even sizeIn) (hOut : 0 < sizeOut) (hOutEven : Even sizeOut) :
    resample forwardTransform (inverseTransform sizeOut) (List.replicate sizeIn c)
        (sizeOut : Int) = Except.ok (List.replicate sizeOut c)
      ∧ (resample forwardTransform (inverseTransform sizeOut) (List.replicate sizeIn c)
            (sizeOut : Int) >>= fun decimated =>
          resample forwardTransform (inverseTransform sizeIn) decimated (sizeIn : Int))
        = Except.ok (List.replicate sizeIn c) := by
  have h1 := resample_replicate c sizeIn sizeOut hIn hInEven hOutEven
  refine ⟨h1, ?_⟩
  rw [h1, ok_bind]
  exact resample_replicate c sizeOut sizeIn hOut hOutEven hInEven

theorem resample_constant_witness :
    resample forwardTransform (inverseTransform 128) (List.replicate 256 (-200))
        ((128 : Nat) : Int) = Except.ok (List.replicate 128 (-200))
      ∧ (resample forwardTransform (inverseTransform 128) (List.replicate 256 (-200))
            ((128 : Nat) : Int) >>= fun decimated =>
          resample forwardTransform (inverseTransform 256) decimated ((256 : Nat) : Int))
        = Except.ok (List.replicate 256 (-200)) :=
  resample_constant (-200) 256 128 (by decide) (by decide) (by decide) (by decide)

end SpsModelAnal
